import Mathlib

/-!
Shallow embedding of the `thread-share` crate's sharing primitives
(`src/core.rs`, `src/atomic.rs`, `src/locked.rs`) and proofs of the
spec's claims about them.

Modelling conventions:
* `Arc<AtomicPtr<T>>` (the `ArcThreadShare` storage) is modelled by
  `AtomicCell`: an association-list heap of live `Box` allocations,
  a fresh-address counter for `Box::into_raw`, and an optional current
  pointer (`none` models a null pointer).
* `Arc<RwLock<T>>` / `Arc<Mutex<T>>` storage is modelled by the guarded
  value itself; a closure run under the exclusive write lock is a single
  atomic transition (mutual exclusion makes the whole critical section
  indivisible to other threads).
* The condition-variable protocol of `ThreadShare` is modelled by an
  event trace per operation (lock acquire, mutation, `notify_all`,
  guard drop) and by a notification counter.
* Concurrency claims are settled against explicit interleaving
  semantics: a scheduler (a list of thread indices / actions) drives a
  step function, and the theorems quantify over all schedules.
-/

/-- Heap of live `Box` allocations together with the `AtomicPtr` slot of
`ArcThreadShare` (src/atomic.rs). `ptr = none` models a null pointer. -/
structure AtomicCell (α : Type) where
  heap : List (Nat × α)
  nextAddr : Nat
  ptr : Option Nat
deriving DecidableEq

/-- Value stored at address `p`, i.e. the pointee of `p` (dereference). -/
def AtomicCell.valAt (c : AtomicCell α) (p : Nat) : Option α :=
  (c.heap.find? (fun e => e.1 == p)).map (·.2)

/-- Deallocate the box at address `p` (`drop(Box::from_raw(p))`). -/
def freeAddr (h : List (Nat × α)) (p : Nat) : List (Nat × α) :=
  h.filter (fun e => e.1 != p)

/-- In-place write to the box at address `p` (through `&mut *ptr`). -/
def writeAddr (h : List (Nat × α)) (p : Nat) (v : α) : List (Nat × α) :=
  h.map (fun e => if e.1 == p then (p, v) else e)

/-- The value the cell's pointer currently designates. -/
def AtomicCell.current (c : AtomicCell α) : Option α :=
  c.ptr.bind c.valAt

/-- Well-formedness of a cell: the pointer is live, every live address is
below the allocation counter, and addresses are distinct. -/
structure AtomicCell.WF (c : AtomicCell α) : Prop where
  ptrLive : ∀ p, c.ptr = some p → (c.valAt p).isSome
  keysLt : ∀ e ∈ c.heap, e.1 < c.nextAddr
  nodupKeys : (c.heap.map (·.1)).Nodup

/-- Outcome of an `ArcThreadShare` operation: a normal return with the
resulting cell, a `panic!` with its message, or undefined behavior
(dereferencing an invalid pointer in `unsafe` code). -/
inductive OpResult (α β : Type) where
  | ok (ret : β) (c : AtomicCell α)
  | panicked (msg : String)
  | undefinedBehavior
deriving DecidableEq

/-- ArcThreadShare::new (src/atomic.rs:314-322): boxes the value and
stores its address in a fresh atomic pointer. -/
def ArcThreadShare.new (x : α) : AtomicCell α :=
  ⟨[(0, x)], 1, some 0⟩

/-- ArcThreadShare::get (src/atomic.rs:346-352): loads the pointer and
clones the pointee. There is no null check: a null pointer is
dereferenced in `unsafe` code, which is undefined behavior. -/
def ArcThreadShare.get (c : AtomicCell α) : OpResult α α :=
  match c.ptr with
  | none => .undefinedBehavior
  | some p =>
    match c.valAt p with
    | some v => .ok v c
    | none => .undefinedBehavior

/-- ArcThreadShare::read (src/atomic.rs:522-532): loads the pointer; if
non-null applies `f` to the pointee, otherwise panics. -/
def ArcThreadShare.read (c : AtomicCell α) (f : α → β) : OpResult α β :=
  match c.ptr with
  | none => .panicked "Attempted to read from null pointer"
  | some p =>
    match c.valAt p with
    | some v => .ok (f v) c
    | none => .undefinedBehavior

/-- ArcThreadShare::write (src/atomic.rs:535-545): loads the pointer; if
non-null applies `f` to the pointee in place, otherwise panics. The
closure returns the new pointee together with its result `R`. -/
def ArcThreadShare.write (c : AtomicCell α) (f : α → α × β) : OpResult α β :=
  match c.ptr with
  | none => .panicked "Attempted to write to null pointer"
  | some p =>
    match c.valAt p with
    | some v => .ok (f v).2 { c with heap := writeAddr c.heap p (f v).1 }
    | none => .undefinedBehavior

/-- ArcThreadShare::update (src/atomic.rs:410-420): loads the pointer and,
only if it is non-null, applies `f` to the pointee in place. A null
pointer is silently skipped: no panic, no effect. -/
def ArcThreadShare.update (c : AtomicCell α) (f : α → α) : OpResult α Unit :=
  match c.ptr with
  | none => .ok () c
  | some p =>
    match c.valAt p with
    | some v => .ok () { c with heap := writeAddr c.heap p (f v) }
    | none => .undefinedBehavior

/-- ArcThreadShare::set (src/atomic.rs:372-384): boxes the new value,
swaps the pointer to it, and frees the old allocation when non-null. -/
def ArcThreadShare.set (c : AtomicCell α) (x : α) : AtomicCell α :=
  let a := c.nextAddr
  let h1 := c.heap ++ [(a, x)]
  match c.ptr with
  | some p => ⟨freeAddr h1 p, a + 1, some a⟩
  | none => ⟨h1, a + 1, some a⟩

/-- One iteration of the compare-exchange retry loop of
ArcThreadShare::add / increment (src/atomic.rs:450-519), taken after the
thread has loaded pointer `p` and read `cur` from it: allocate a box
holding `hadd cur delta`, attempt `compare_exchange` against `p`; on
success free the superseded box `p` and stop (`true`); on failure free
the just-allocated candidate and report retry (`false`). -/
def ArcThreadShare.casAddIter (c : AtomicCell α) (hadd : α → α → α)
    (delta : α) (p : Nat) (cur : α) : AtomicCell α × Bool :=
  let a := c.nextAddr
  let h1 := c.heap ++ [(a, hadd cur delta)]
  if c.ptr = some p then
    (⟨freeAddr h1 p, a + 1, some a⟩, true)
  else
    (⟨freeAddr h1 a, a + 1, c.ptr⟩, false)

/-- ArcThreadShare::add (src/atomic.rs:486-519) run without interference
from other threads: the loop loads the pointer (breaking immediately if
null), reads the current value, and its first compare-exchange attempt
succeeds because the pointer has not changed since the load. -/
def ArcThreadShare.add (c : AtomicCell α) (hadd : α → α → α) (delta : α) :
    AtomicCell α :=
  match c.ptr with
  | none => c
  | some p =>
    match c.valAt p with
    | some cur => (ArcThreadShare.casAddIter c hadd delta p cur).1
    | none => c

/-- ArcThreadShare::increment (src/atomic.rs:450-483) run without
interference: identical to `add` with `delta = T::from(1u8)`. -/
def ArcThreadShare.increment (c : AtomicCell α) (hadd : α → α → α)
    (one : α) : AtomicCell α :=
  ArcThreadShare.add c hadd one

/-- ArcThreadShare::from_json (src/atomic.rs:556-561): just runs the
deserializer on the string and returns its result; the cell is not
touched on success or on failure. `parse` stands for
`serde_json::from_str`. -/
def ArcThreadShare.fromJson (parse : String → Except String β)
    (c : AtomicCell α) (j : String) : Except String β × AtomicCell α :=
  (parse j, c)

/-- Events of one `ThreadShare` operation, in program order. The write
guard of `parking_lot::RwLock` is dropped at the end of the method's
scope, which is the `releaseWrite` event. -/
inductive LockEvent where
  | acquireWrite
  | mutate
  | notifyAll
  | notifyOne
  | releaseWrite
deriving DecidableEq

/-- Event trace of ThreadShare::set (src/core.rs:382-386): take the write
lock, assign the new value, `condvar.notify_all()`, then the guard drops
at the end of the scope. -/
def ThreadShare.setTrace : List LockEvent :=
  [.acquireWrite, .mutate, .notifyAll, .releaseWrite]

/-- Event trace of ThreadShare::update (src/core.rs:410-417): take the
write lock, run the closure on the value, `condvar.notify_all()`, then
the guard drops at the end of the scope. -/
def ThreadShare.updateTrace : List LockEvent :=
  [.acquireWrite, .mutate, .notifyAll, .releaseWrite]

/-- Event trace of ThreadShare::write (src/core.rs:349-355): take the
write lock, run the closure, drop the guard. No notification. -/
def ThreadShare.writeTrace : List LockEvent :=
  [.acquireWrite, .mutate, .releaseWrite]

/-- State of a `ThreadShare`: the value guarded by the `RwLock` together
with the total number of `notify_all` broadcasts issued on the condvar. -/
structure ThreadShare.State (α : Type) where
  value : α
  notifications : Nat
deriving DecidableEq

/-- ThreadShare::new (src/core.rs:255-262). -/
def ThreadShare.mk (x : α) : ThreadShare.State α := ⟨x, 0⟩

/-- ThreadShare::get (src/core.rs:283-288): read-lock and clone. -/
def ThreadShare.get (s : ThreadShare.State α) : α × ThreadShare.State α :=
  (s.value, s)

/-- ThreadShare::read (src/core.rs:315-321). -/
def ThreadShare.readOp (s : ThreadShare.State α) (f : α → β) :
    β × ThreadShare.State α :=
  (f s.value, s)

/-- ThreadShare::set (src/core.rs:382-386): overwrite under the write
lock, then broadcast. -/
def ThreadShare.set (s : ThreadShare.State α) (x : α) : ThreadShare.State α :=
  ⟨x, s.notifications + 1⟩

/-- ThreadShare::update (src/core.rs:410-417): mutate under the write
lock, then broadcast. -/
def ThreadShare.update (s : ThreadShare.State α) (f : α → α) :
    ThreadShare.State α :=
  ⟨f s.value, s.notifications + 1⟩

/-- ThreadShare::write (src/core.rs:349-355): mutate under the write
lock; no notification is issued. -/
def ThreadShare.write (s : ThreadShare.State α) (f : α → α × β) :
    β × ThreadShare.State α :=
  ((f s.value).2, ⟨(f s.value).1, s.notifications⟩)

/-- ThreadShare::from_json (src/core.rs:183-189): on successful
deserialization replaces the value via `self.set(deserialized)`; on
failure returns the error and touches nothing. `parse` stands for
`serde_json::from_str`. -/
def ThreadShare.fromJson (parse : String → Except String α)
    (s : ThreadShare.State α) (j : String) :
    Except String Unit × ThreadShare.State α :=
  match parse j with
  | .error e => (.error ("Deserialization failed: " ++ e), s)
  | .ok v => (.ok (), ThreadShare.set s v)

/-- ThreadShare::as_arc (src/core.rs:617-627): read-locks, clones the
current value, boxes the clone and wraps it in a fresh `AtomicPtr`
cell. The resulting cell is an independent copy of the value. -/
def ThreadShare.asArc (s : ThreadShare.State α) : AtomicCell α :=
  ⟨[(0, s.value)], 1, some 0⟩

/-- The result of one blocked `Condvar::wait_timeout` call: either a
notification arrived during the window or the timeout elapsed. -/
inductive WaitOutcome where
  | woken
  | timedOut
deriving DecidableEq

/-- Contract of `Condvar::wait_timeout` (external collaborator): the wait
is woken when at least one `notify_all` is broadcast during the window,
and times out when none is. -/
def condvarOutcome (notifies : Nat) : WaitOutcome :=
  if notifies = 0 then .timedOut else .woken

/-- ThreadShare::wait_for_change (src/core.rs:454-458): waits on the
condvar with the timeout and returns `result.1.timed_out()`. -/
def ThreadShare.waitForChange (o : WaitOutcome) : Bool :=
  match o with
  | .timedOut => true
  | .woken => false

/-- Mutating operations of `ThreadShare` that another thread may run
during a wait window. -/
inductive MutOp where
  | setOp
  | updateOp
  | writeOp
deriving DecidableEq

/-- Event trace generated by one mutating operation. -/
def MutOp.trace : MutOp → List LockEvent
  | .setOp => ThreadShare.setTrace
  | .updateOp => ThreadShare.updateTrace
  | .writeOp => ThreadShare.writeTrace

/-- Number of condvar broadcasts a wait window containing exactly the
operations `ops` observes. -/
def windowNotifies (ops : List MutOp) : Nat :=
  (ops.map (fun op => op.trace.count .notifyAll)).sum

/-- SimpleShare state: the value guarded by the `Mutex` (src/core.rs:637-639). -/
def SimpleShare.get (s : α) : α × α := (s, s)

/-- SimpleShare::set (src/core.rs:720-723). -/
def SimpleShare.set (_s : α) (x : α) : α := x

/-- SimpleShare::update (src/core.rs:746-752). -/
def SimpleShare.update (s : α) (f : α → α) : α := f s

/-- ArcThreadShareLocked::get (src/locked.rs:312-317): read-lock and clone. -/
def ArcThreadShareLocked.get (s : α) : α × α := (s, s)

/-- ArcThreadShareLocked::set (src/locked.rs:472-475). -/
def ArcThreadShareLocked.set (_s : α) (x : α) : α := x

/-- ArcThreadShareLocked::from_json (src/locked.rs:586-588): runs the
deserializer on the string and returns its result; the guarded value is
not touched on success or on failure. -/
def ArcThreadShareLocked.fromJson (parse : String → Except String β)
    (s : α) (j : String) : Except String β × α :=
  (parse j, s)

/-- A handle is an `Arc` reference to one cell of the global store of
shared values; `ThreadShare::clone` (src/core.rs:521-528) clones the
`Arc`s, so the clone designates the same cell. -/
structure Handle where
  idx : Nat
deriving DecidableEq

/-- ThreadShare::clone (src/core.rs:521-528): `Arc::clone` on every
field, so the new handle aliases the same storage cell. -/
def ThreadShare.cloneHandle (h : Handle) : Handle :=
  ⟨h.idx⟩

/-- Write the value through a handle (`set` acting on the store the
handle points into). -/
def Handle.setIn (h : Handle) (store : List α) (v : α) : List α :=
  store.set h.idx v

/-- Read the value through a handle (`get` acting on the store). -/
def Handle.getIn (h : Handle) (store : List α) : Option α :=
  store[h.idx]?

/-- Pool of writer threads hammering one lock-guarded counter:
`value` is the shared integer and `pending[i]` is the number of
`update(|x| *x += 1)` calls thread `i` still has to perform. Because
`update` holds the exclusive write lock (RwLock of `ThreadShare`,
Mutex of `SimpleShare`) for the whole closure, each call is a single
atomic transition. -/
structure LockedPool where
  value : Nat
  pending : List Nat
deriving DecidableEq

/-- One scheduled `update(|x| *x += 1)` by thread `i` (a no-op when the
thread has no calls left or does not exist). -/
def lockedStep (st : LockedPool) (i : Nat) : LockedPool :=
  match st.pending[i]? with
  | some (k + 1) => ⟨st.value + 1, st.pending.set i k⟩
  | _ => st

/-- Run an arbitrary interleaving, given as the sequence of thread
indices chosen by the scheduler. -/
def lockedRun (st : LockedPool) : List Nat → LockedPool
  | [] => st
  | i :: rest => lockedRun (lockedStep st i) rest

/-- All threads have finished (joined). -/
def LockedPool.done (st : LockedPool) : Prop :=
  ∀ k ∈ st.pending, k = 0

instance (st : LockedPool) : Decidable st.done :=
  List.decidableBAll _ st.pending

/-- Initial pool: counter 0, `n` threads with `m` calls each. -/
def initLockedPool (n m : Nat) : LockedPool :=
  ⟨0, List.replicate n m⟩

/-- Local state of one thread inside `ArcThreadShare::increment`:
`pending` calls left, and the snapshot (pointer identity, pointee value)
taken by the load at the top of the current loop iteration, if any. -/
structure CasThread where
  pending : Nat
  loaded : Option (Nat × Nat)
deriving DecidableEq

/-- Shared state for the CAS-loop counter: each live allocation gets a
fresh identity (`version`), so `compare_exchange` on the pointer is
equality of versions; `value` is the current pointee. -/
structure CasPool where
  version : Nat
  value : Nat
  threads : List CasThread
deriving DecidableEq

/-- Scheduler actions for the CAS loop: `load i` is thread `i` executing
the pointer load plus pointee read at the top of an iteration, `cas i`
is its `compare_exchange` attempt (whose outcome the current state
decides). -/
inductive CasAct where
  | load (i : Nat)
  | cas (i : Nat)
deriving DecidableEq

/-- One scheduled step of `ArcThreadShare::increment`
(src/atomic.rs:450-483) by one thread. On a successful
compare-exchange the new box holds `snapshot + 1` and the call returns;
on failure the candidate is dropped and the thread retries from the
load. -/
def casStep (st : CasPool) : CasAct → CasPool
  | .load i =>
    match st.threads[i]? with
    | some t =>
      match t.loaded with
      | some _ => st
      | none =>
        if t.pending = 0 then st
        else
          { st with
            threads := st.threads.set i ⟨t.pending, some (st.version, st.value)⟩ }
    | none => st
  | .cas i =>
    match st.threads[i]? with
    | some t =>
      match t.loaded with
      | some (ver, v) =>
        if ver = st.version then
          { version := st.version + 1
            value := v + 1
            threads := st.threads.set i ⟨t.pending - 1, none⟩ }
        else
          { st with threads := st.threads.set i ⟨t.pending, none⟩ }
      | none => st
    | none => st

/-- Run an arbitrary interleaving of CAS-loop steps. -/
def casRun (st : CasPool) : List CasAct → CasPool
  | [] => st
  | a :: rest => casRun (casStep st a) rest

/-- All threads have completed every `increment()` call and joined. -/
def CasPool.done (st : CasPool) : Prop :=
  ∀ t ∈ st.threads, t.pending = 0 ∧ t.loaded = none

instance (st : CasPool) : Decidable st.done :=
  List.decidableBAll _ st.threads

/-- Initial CAS pool: counter 0, `n` threads with `m` calls each. -/
def initCasPool (n m : Nat) : CasPool :=
  ⟨0, 0, List.replicate n ⟨m, none⟩⟩

/-- Inductive invariant of the CAS counter model: the counter plus all
pending calls equals the constant `total`; every held snapshot is of a
current-or-older allocation, agrees with the current value while its
allocation is still installed, and belongs to a thread still inside an
`increment()` call. -/
def CasInvariant (total : Nat) (st : CasPool) : Prop :=
  st.value + (st.threads.map (·.pending)).sum = total ∧
  ∀ t ∈ st.threads, ∀ ver v, t.loaded = some (ver, v) →
    ver ≤ st.version ∧ (ver = st.version → v = st.value) ∧ t.pending ≠ 0

/-! Helper lemmas about lists, used by several claims below. -/

theorem listSumSet (l : List Nat) (i a b : Nat) (h : l[i]? = some a) :
    (l.set i b).sum + a = l.sum + b := by
  induction l generalizing i with
  | nil => simp at h
  | cons x xs ih =>
    cases i with
    | zero =>
      simp at h
      subst h
      simp [List.set]
      omega
    | succ j =>
      simp at h
      have := ih j h
      simp [List.set]
      omega

theorem listMapSet (l : List α) (i : Nat) (t : α) (f : α → β) :
    (l.set i t).map f = (l.map f).set i (f t) := by
  induction l generalizing i with
  | nil => simp
  | cons x xs ih =>
    cases i with
    | zero => simp [List.set]
    | succ j => simp [List.set, ih]

theorem memOfMemSet {l : List α} {i : Nat} {a x : α} (h : x ∈ l.set i a) :
    x ∈ l ∨ x = a := by
  induction l generalizing i with
  | nil => simp at h
  | cons y ys ih =>
    cases i with
    | zero =>
      simp [List.set] at h
      rcases h with h | h
      · exact Or.inr h
      · exact Or.inl (List.mem_cons_of_mem _ h)
    | succ j =>
      simp [List.set] at h
      rcases h with h | h
      · exact Or.inl (h ▸ List.mem_cons_self _ _)
      · rcases ih h with h2 | h2
        · exact Or.inl (List.mem_cons_of_mem _ h2)
        · exact Or.inr h2

theorem memOfGetElemEq {l : List α} {i : Nat} {a : α} (h : l[i]? = some a) :
    a ∈ l := by
  induction l generalizing i with
  | nil => simp at h
  | cons x xs ih =>
    cases i with
    | zero =>
      simp at h
      exact h ▸ List.mem_cons_self _ _
    | succ j =>
      simp at h
      exact List.mem_cons_of_mem _ (ih h)

theorem listSumZero {l : List Nat} (h : ∀ x ∈ l, x = 0) : l.sum = 0 := by
  induction l with
  | nil => rfl
  | cons x xs ih =>
    have hx := h x (List.mem_cons_self _ _)
    simp [hx, ih fun y hy => h y (List.mem_cons_of_mem _ hy)]

theorem findKeyNone {l : List (Nat × α)} {q : Nat}
    (h : ∀ e ∈ l, e.1 ≠ q) : l.find? (fun e => e.1 == q) = none := by
  induction l with
  | nil => rfl
  | cons e es ih =>
    have he : (e.1 == q) = false := by simp [h e (List.mem_cons_self _ _)]
    simp [List.find?, he, ih fun x hx => h x (List.mem_cons_of_mem _ hx)]

theorem freeAddrOfNotMem {l : List (Nat × α)} {p : Nat}
    (h : ∀ e ∈ l, e.1 ≠ p) : freeAddr l p = l := by
  induction l with
  | nil => rfl
  | cons e es ih =>
    have he : (e.1 != p) = true := by simp [h e (List.mem_cons_self _ _)]
    have ih2 := ih fun x hx => h x (List.mem_cons_of_mem _ hx)
    simp [freeAddr, List.filter, he]
    simpa [freeAddr] using ih2

theorem freeAddrAppend (l₁ l₂ : List (Nat × α)) (p : Nat) :
    freeAddr (l₁ ++ l₂) p = freeAddr l₁ p ++ freeAddr l₂ p := by
  simp [freeAddr, List.filter_append]

theorem findKeyFreeAddr {l : List (Nat × α)} {p q : Nat} (hpq : q ≠ p) :
    (freeAddr l p).find? (fun e => e.1 == q) = l.find? (fun e => e.1 == q) := by
  induction l with
  | nil => rfl
  | cons e es ih =>
    by_cases hep : e.1 = p
    · have h1 : (e.1 != p) = false := by simp [hep]
      have h2 : (e.1 == q) = false := by
        simp [hep]
        omega
      simp [freeAddr, List.filter, h1, List.find?, h2] at ih ⊢
      exact ih
    · have h1 : (e.1 != p) = true := by simp [hep]
      cases heq : (e.1 == q) with
      | true => simp [freeAddr, List.filter, h1, List.find?, heq]
      | false =>
        simp [freeAddr, List.filter, h1, List.find?, heq] at ih ⊢
        exact ih

theorem findKeyFreeAddrSelf (l : List (Nat × α)) (p : Nat) :
    (freeAddr l p).find? (fun e => e.1 == p) = none := by
  apply findKeyNone
  intro e he
  simp [freeAddr, List.mem_filter] at he
  exact he.2

theorem lengthFreeAddr {l : List (Nat × α)} {p : Nat}
    (nodup : (l.map (·.1)).Nodup) (hmem : ∃ e ∈ l, e.1 = p) :
    (freeAddr l p).length + 1 = l.length := by
  induction l with
  | nil => simp at hmem
  | cons e es ih =>
    have hnotmem : e.1 ∉ es.map (·.1) := (List.nodup_cons.mp nodup).1
    have nodup2 : (es.map (·.1)).Nodup := (List.nodup_cons.mp nodup).2
    by_cases hep : e.1 = p
    · have h1 : (e.1 != p) = false := by simp [hep]
      have hnone : ∀ x ∈ es, x.1 ≠ p := by
        intro x hx hxp
        have hmm : x.1 ∈ es.map (·.1) := List.mem_map_of_mem _ hx
        rw [hxp, ← hep] at hmm
        exact hnotmem hmm
      have hrest := freeAddrOfNotMem hnone
      have hstep : freeAddr (e :: es) p = freeAddr es p := by
        simp [freeAddr, List.filter_cons, h1]
      rw [hstep, hrest]
      simp
    · have h1 : (e.1 != p) = true := by simp [hep]
      rcases hmem with ⟨x, hx, hxp⟩
      rcases List.mem_cons.mp hx with rfl | hx2
      · exact absurd hxp hep
      · have hlen := ih nodup2 ⟨x, hx2, hxp⟩
        have hstep : freeAddr (e :: es) p = e :: freeAddr es p := by
          simp [freeAddr, List.filter_cons, h1]
        rw [hstep]
        simp only [List.length_cons]
        omega

theorem nodupKeysMemOfFind {l : List (Nat × α)} {q : Nat} {v : α}
    (h : (l.find? (fun e => e.1 == q)).map (·.2) = some v) :
    ∃ e ∈ l, e.1 = q ∧ e.2 = v := by
  induction l with
  | nil => simp [List.find?] at h
  | cons e es ih =>
    cases heq : (e.1 == q) with
    | true =>
      simp [List.find?, heq] at h
      exact ⟨e, List.mem_cons_self _ _, by simpa using heq, h⟩
    | false =>
      have hstep : (e :: es).find? (fun e => e.1 == q) =
          es.find? (fun e => e.1 == q) := by
        simp [List.find?, heq]
      rw [hstep] at h
      rcases ih h with ⟨x, hx, hxq, hxv⟩
      exact ⟨x, List.mem_cons_of_mem _ hx, hxq, hxv⟩

/-! Claim theorems -/

/-- C10: on every variant (ThreadShare, SimpleShare, ArcThreadShare,
ArcThreadShareLocked), `get()` leaves the stored value unchanged and
repeated calls without intervening mutation return the same value. -/
theorem get_idempotent_no_mutation (α : Type) (s : ThreadShare.State α)
    (u w : α) (c : AtomicCell α) (p : Nat) (v : α)
    (hp : c.ptr = some p) (hv : c.valAt p = some v) :
    (ThreadShare.get s).2 = s ∧
    (ThreadShare.get ((ThreadShare.get s).2)).1 = (ThreadShare.get s).1 ∧
    (SimpleShare.get u).2 = u ∧
    (SimpleShare.get ((SimpleShare.get u).2)).1 = (SimpleShare.get u).1 ∧
    (ArcThreadShareLocked.get w).2 = w ∧
    (ArcThreadShareLocked.get ((ArcThreadShareLocked.get w).2)).1 =
      (ArcThreadShareLocked.get w).1 ∧
    ArcThreadShare.get c = .ok v c := by
  refine ⟨rfl, rfl, rfl, rfl, rfl, rfl, ?_⟩
  simp [ArcThreadShare.get, hp, hv]

/-- Witness for C10 at a concrete cell holding 5. -/
theorem get_idempotent_no_mutation_witness :
    (ThreadShare.get (⟨0, 0⟩ : ThreadShare.State Nat)).2 = ⟨0, 0⟩ ∧
    (ThreadShare.get ((ThreadShare.get (⟨0, 0⟩ : ThreadShare.State Nat)).2)).1 =
      (ThreadShare.get (⟨0, 0⟩ : ThreadShare.State Nat)).1 ∧
    (SimpleShare.get (0 : Nat)).2 = 0 ∧
    (SimpleShare.get ((SimpleShare.get (0 : Nat)).2)).1 = (SimpleShare.get (0 : Nat)).1 ∧
    (ArcThreadShareLocked.get (0 : Nat)).2 = 0 ∧
    (ArcThreadShareLocked.get ((ArcThreadShareLocked.get (0 : Nat)).2)).1 =
      (ArcThreadShareLocked.get (0 : Nat)).1 ∧
    ArcThreadShare.get (ArcThreadShare.new 5) = .ok 5 (ArcThreadShare.new 5) :=
  get_idempotent_no_mutation Nat ⟨0, 0⟩ 0 0 (ArcThreadShare.new 5) 0 5 rfl rfl

/-- C5 counterexample: on a null pointer, `update` silently returns
without panicking and `get` dereferences the null pointer unchecked
(undefined behavior), contradicting the claim that all four pointee
accessors abort with a diagnostic. -/
theorem null_misuse_counterexample :
    ArcThreadShare.update (⟨[], 0, none⟩ : AtomicCell Nat) Nat.succ =
      OpResult.ok () ⟨[], 0, none⟩ ∧
    ArcThreadShare.get (⟨[], 0, none⟩ : AtomicCell Nat) =
      OpResult.undefinedBehavior :=
  ⟨rfl, rfl⟩

/-- C5 amended: on a null pointer, `read` and `write` panic with a
diagnostic, `update` checks for null and silently skips the closure,
and `get` performs no null check at all (it dereferences the pointer in
`unsafe` code, which is undefined behavior, not a diagnosed abort). -/
theorem null_pointer_operation_behavior (α β : Type) (c : AtomicCell α)
    (f : α → β) (g : α → α) (wf : α → α × β) (hnull : c.ptr = none) :
    ArcThreadShare.read c f = .panicked "Attempted to read from null pointer" ∧
    ArcThreadShare.write c wf = .panicked "Attempted to write to null pointer" ∧
    ArcThreadShare.update c g = .ok () c ∧
    ArcThreadShare.get c = .undefinedBehavior := by
  simp [ArcThreadShare.read, ArcThreadShare.write, ArcThreadShare.update,
    ArcThreadShare.get, hnull]

/-- Witness for the amended C5 at a concrete null cell. -/
theorem null_pointer_operation_behavior_witness :
    ArcThreadShare.read (⟨[], 0, none⟩ : AtomicCell Nat) Nat.succ =
      .panicked "Attempted to read from null pointer" ∧
    ArcThreadShare.write (⟨[], 0, none⟩ : AtomicCell Nat) (fun x => (x, x)) =
      .panicked "Attempted to write to null pointer" ∧
    ArcThreadShare.update (⟨[], 0, none⟩ : AtomicCell Nat) Nat.succ =
      .ok () ⟨[], 0, none⟩ ∧
    ArcThreadShare.get (⟨[], 0, none⟩ : AtomicCell Nat) = .undefinedBehavior :=
  null_pointer_operation_behavior Nat Nat ⟨[], 0, none⟩ Nat.succ Nat.succ
    (fun x => (x, x)) rfl

/-- C4 counterexample: `ArcThreadShare::from_json` succeeds on the input
yet leaves the stored value at 0 instead of replacing it with 7 (what
`set` would have produced), and `ArcThreadShareLocked::from_json`
likewise returns the parsed value without touching the guarded value. -/
theorem from_json_no_replace_counterexample :
    (ArcThreadShare.fromJson
      (fun s => if s = "7" then Except.ok (7 : Nat) else Except.error "bad")
      (ArcThreadShare.new 0) "7").1 = Except.ok 7 ∧
    ((ArcThreadShare.fromJson
      (fun s => if s = "7" then Except.ok (7 : Nat) else Except.error "bad")
      (ArcThreadShare.new 0) "7").2).current = some 0 ∧
    (ArcThreadShare.set (ArcThreadShare.new 0) 7).current = some (7 : Nat) ∧
    ArcThreadShareLocked.fromJson
      (fun s => if s = "7" then Except.ok (7 : Nat) else Except.error "bad")
      (0 : Nat) "7" = (Except.ok 7, 0) := by
  refine ⟨?_, ?_, ?_, ?_⟩ <;> rfl

/-- C4 amended: only `ThreadShare::from_json` replaces the guarded value
(via `set`) on success and leaves it unchanged on failure;
`ArcThreadShare::from_json` and `ArcThreadShareLocked::from_json` merely
run the deserializer and return its result, leaving the guarded value
unchanged on success as well as on failure. -/
theorem from_json_replace_semantics (α β : Type)
    (parse : String → Except String α) (parseB : String → Except String β)
    (s : ThreadShare.State α) (c : AtomicCell α) (u : α) (j : String)
    (v : α) (e : String) :
    (parse j = .ok v →
      ThreadShare.fromJson parse s j = (.ok (), ThreadShare.set s v)) ∧
    (parse j = .error e →
      ThreadShare.fromJson parse s j =
        (.error ("Deserialization failed: " ++ e), s)) ∧
    (ArcThreadShare.fromJson parseB c j).2 = c ∧
    (ArcThreadShare.fromJson parseB c j).1 = parseB j ∧
    ArcThreadShareLocked.fromJson parseB u j = (parseB j, u) := by
  refine ⟨fun h => by simp [ThreadShare.fromJson, h],
    fun h => by simp [ThreadShare.fromJson, h], rfl, rfl, rfl⟩

/-- Witness for the amended C4: a parse that succeeds on "7" and fails on
"x", applied on both branches. -/
theorem from_json_replace_semantics_witness :
    ThreadShare.fromJson
      (fun s => if s = "7" then Except.ok (7 : Nat) else Except.error "bad")
      ⟨0, 0⟩ "7" = (.ok (), ThreadShare.set ⟨0, 0⟩ 7) ∧
    ThreadShare.fromJson
      (fun s => if s = "7" then Except.ok (7 : Nat) else Except.error "bad")
      ⟨0, 0⟩ "x" = (.error ("Deserialization failed: " ++ "bad"), ⟨0, 0⟩) :=
  ⟨(from_json_replace_semantics Nat Nat
      (fun s => if s = "7" then Except.ok (7 : Nat) else Except.error "bad")
      (fun s => if s = "7" then Except.ok (7 : Nat) else Except.error "bad")
      ⟨0, 0⟩ (ArcThreadShare.new 0) 0 "7" 7 "bad").1 (by rfl),
   (from_json_replace_semantics Nat Nat
      (fun s => if s = "7" then Except.ok (7 : Nat) else Except.error "bad")
      (fun s => if s = "7" then Except.ok (7 : Nat) else Except.error "bad")
      ⟨0, 0⟩ (ArcThreadShare.new 0) 0 "x" 7 "bad").2.1 (by rfl)⟩

/-- C7: `wait_for_change(timeout)` returns `true` exactly when the wait
timed out with no `set`/`update` notification inside the window, and
`false` exactly when a concurrent `set`/`update` notified it. -/
theorem wait_for_change_timeout_iff (ops : List MutOp) :
    (ThreadShare.waitForChange (condvarOutcome (windowNotifies ops)) = true ↔
      ∀ op ∈ ops, op = MutOp.writeOp) ∧
    (ThreadShare.waitForChange (condvarOutcome (windowNotifies ops)) = false ↔
      ∃ op ∈ ops, op = MutOp.setOp ∨ op = MutOp.updateOp) := by
  have key : windowNotifies ops = 0 ↔ ∀ op ∈ ops, op = MutOp.writeOp := by
    induction ops with
    | nil => simp [windowNotifies]
    | cons op rest ih =>
      have hstep : windowNotifies (op :: rest) =
          op.trace.count LockEvent.notifyAll + windowNotifies rest := by
        simp [windowNotifies]
      cases op with
      | setOp =>
        rw [hstep]
        have h1 : (MutOp.trace MutOp.setOp).count LockEvent.notifyAll = 1 := by decide
        simp [h1]
      | updateOp =>
        rw [hstep]
        have h1 : (MutOp.trace MutOp.updateOp).count LockEvent.notifyAll = 1 := by decide
        simp [h1]
      | writeOp =>
        rw [hstep]
        have h1 : (MutOp.trace MutOp.writeOp).count LockEvent.notifyAll = 0 := by decide
        simp [h1, ih]
  have notWrite : (¬ ∀ op ∈ ops, op = MutOp.writeOp) ↔
      ∃ op ∈ ops, op = MutOp.setOp ∨ op = MutOp.updateOp := by
    constructor
    · intro h
      push_neg at h
      rcases h with ⟨op, hop, hne⟩
      refine ⟨op, hop, ?_⟩
      cases op with
      | setOp => exact Or.inl rfl
      | updateOp => exact Or.inr rfl
      | writeOp => exact absurd rfl hne
    · intro ⟨op, hop, hor⟩ hall
      rcases hor with h | h <;> simp [hall op hop] at h
  have htrue : ThreadShare.waitForChange (condvarOutcome (windowNotifies ops)) = true ↔
      windowNotifies ops = 0 := by
    by_cases hz : windowNotifies ops = 0 <;>
      simp [condvarOutcome, ThreadShare.waitForChange, hz]
  have hfalse : ThreadShare.waitForChange (condvarOutcome (windowNotifies ops)) = false ↔
      ¬ windowNotifies ops = 0 := by
    by_cases hz : windowNotifies ops = 0 <;>
      simp [condvarOutcome, ThreadShare.waitForChange, hz]
  exact ⟨htrue.trans key, hfalse.trans ((not_congr key).trans notWrite)⟩

/-- C8 counterexample: in both `set` and `update` the broadcast happens
while the write guard is still held (`notify_all` precedes the guard
drop in program order), so the claimed order "release the write lock,
then notify" is false for the code. -/
theorem notify_after_release_counterexample :
    ¬ (ThreadShare.setTrace.findIdx (· == LockEvent.releaseWrite) <
        ThreadShare.setTrace.findIdx (· == LockEvent.notifyAll)) ∧
    ¬ (ThreadShare.updateTrace.findIdx (· == LockEvent.releaseWrite) <
        ThreadShare.updateTrace.findIdx (· == LockEvent.notifyAll)) := by
  decide

/-- C8 amended: `set` and `update` mutate under the exclusive write lock
and then broadcast-notify (`notify_all`, not a single-thread notify) all
waiting threads after the mutation but before the write guard is
released (the guard drops at the end of the method scope). -/
theorem set_update_notify_order :
    ThreadShare.setTrace.findIdx (· == LockEvent.acquireWrite) = 0 ∧
    ThreadShare.setTrace.findIdx (· == LockEvent.mutate) <
      ThreadShare.setTrace.findIdx (· == LockEvent.notifyAll) ∧
    ThreadShare.setTrace.findIdx (· == LockEvent.notifyAll) <
      ThreadShare.setTrace.findIdx (· == LockEvent.releaseWrite) ∧
    ThreadShare.setTrace.count LockEvent.notifyAll = 1 ∧
    ThreadShare.setTrace.count LockEvent.notifyOne = 0 ∧
    ThreadShare.updateTrace.findIdx (· == LockEvent.acquireWrite) = 0 ∧
    ThreadShare.updateTrace.findIdx (· == LockEvent.mutate) <
      ThreadShare.updateTrace.findIdx (· == LockEvent.notifyAll) ∧
    ThreadShare.updateTrace.findIdx (· == LockEvent.notifyAll) <
      ThreadShare.updateTrace.findIdx (· == LockEvent.releaseWrite) ∧
    ThreadShare.updateTrace.count LockEvent.notifyAll = 1 ∧
    ThreadShare.updateTrace.count LockEvent.notifyOne = 0 := by
  decide

/-- C9: `write(f)` mutates the value without signalling the condvar: its
trace contains no notification, it leaves the broadcast counter
unchanged, and a wait window containing only `write` mutations times
out; only `set` and `update` broadcast (each bumps the counter). -/
theorem write_never_notifies (α β : Type) (s : ThreadShare.State α)
    (f : α → α × β) (g : α → α) (x : α) (k : Nat) :
    ThreadShare.writeTrace.count LockEvent.notifyAll = 0 ∧
    ThreadShare.writeTrace.count LockEvent.notifyOne = 0 ∧
    ((ThreadShare.write s f).2).notifications = s.notifications ∧
    ThreadShare.waitForChange
      (condvarOutcome (windowNotifies (List.replicate k MutOp.writeOp))) = true ∧
    (ThreadShare.update s g).notifications = s.notifications + 1 ∧
    (ThreadShare.set s x).notifications = s.notifications + 1 := by
  refine ⟨by decide, by decide, rfl, ?_, rfl, rfl⟩
  have hzero : windowNotifies (List.replicate k MutOp.writeOp) = 0 := by
    induction k with
    | zero => rfl
    | succ n ih =>
      have h1 : (MutOp.trace MutOp.writeOp).count LockEvent.notifyAll = 0 := by decide
      simp [windowNotifies, List.replicate_succ] at ih ⊢
      simp [h1, ih]
  simp [hzero, condvarOutcome, ThreadShare.waitForChange]

/-- C3: `as_arc` exports an independent atomic snapshot: the fresh cell
holds a copy of the current value, `set` through the snapshot changes
only the snapshot (the share's `get` still returns the old value, which
differs from `x` whenever `x` does), and a later mutation of the share
is never visible through the previously taken snapshot. -/
theorem as_arc_snapshot_independence (α : Type) (s : ThreadShare.State α)
    (x y : α) (hx : x ≠ s.value) :
    (ThreadShare.asArc s).current = some s.value ∧
    (ArcThreadShare.set (ThreadShare.asArc s) x).current = some x ∧
    (ThreadShare.get s).1 ≠ x ∧
    (ThreadShare.set s y).value = y ∧
    (y ≠ s.value → (ThreadShare.asArc s).current ≠ some ((ThreadShare.set s y).value)) := by
  refine ⟨rfl, rfl, ?_, rfl, ?_⟩
  · simpa [ThreadShare.get] using Ne.symm hx
  · intro hy hcontra
    simp [ThreadShare.asArc, AtomicCell.current, AtomicCell.valAt,
      ThreadShare.set, List.find?] at hcontra
    exact hy hcontra.symm

/-- Witness for C3 at a concrete share holding 0, snapshot set to 1. -/
theorem as_arc_snapshot_independence_witness :
    (ThreadShare.asArc (⟨0, 0⟩ : ThreadShare.State Nat)).current = some 0 ∧
    (ArcThreadShare.set (ThreadShare.asArc (⟨0, 0⟩ : ThreadShare.State Nat)) 1).current = some 1 ∧
    (ThreadShare.get (⟨0, 0⟩ : ThreadShare.State Nat)).1 ≠ 1 ∧
    (ThreadShare.set (⟨0, 0⟩ : ThreadShare.State Nat) 2).value = 2 ∧
    ((2 : Nat) ≠ 0 →
      (ThreadShare.asArc (⟨0, 0⟩ : ThreadShare.State Nat)).current ≠
        some ((ThreadShare.set (⟨0, 0⟩ : ThreadShare.State Nat) 2).value)) :=
  as_arc_snapshot_independence Nat ⟨0, 0⟩ 1 2 (by decide)

/-- C6: clone transparency: a clone (iterated any number of times)
aliases the same storage cell, so a `set` through any clone is observed
by a `get` through any other clone. -/
theorem clone_transparency (α : Type) (store : List α) (h : Handle) (v : α)
    (k k2 : Nat) (hlt : h.idx < store.length) :
    Handle.getIn (ThreadShare.cloneHandle^[k2] h)
      (Handle.setIn (ThreadShare.cloneHandle^[k] h) store v) = some v := by
  have hfix : ∀ n, ThreadShare.cloneHandle^[n] h = h :=
    fun n => Function.iterate_fixed rfl n
  rw [hfix, hfix]
  simp [Handle.getIn, Handle.setIn]
  exact List.getElem?_set_eq_of_lt v hlt

/-- Witness for C6: one-element store, handle 0, one clone on each side. -/
theorem clone_transparency_witness :
    Handle.getIn (ThreadShare.cloneHandle^[1] ⟨0⟩)
      (Handle.setIn (ThreadShare.cloneHandle^[0] ⟨0⟩) [5] 9) = some (9 : Nat) :=
  clone_transparency Nat [5] ⟨0⟩ 9 0 1 (by decide)

/-! Lemmas for the CAS allocation reasoning of C2. -/

theorem findKeyAppendLeftNone {l₁ : List (Nat × α)} (l₂ : List (Nat × α))
    {q : Nat} (h : ∀ e ∈ l₁, e.1 ≠ q) :
    (l₁ ++ l₂).find? (fun e => e.1 == q) = l₂.find? (fun e => e.1 == q) := by
  induction l₁ with
  | nil => rfl
  | cons e es ih =>
    have he : (e.1 == q) = false := by simp [h e (List.mem_cons_self _ _)]
    simpa [List.find?, he] using ih (fun x hx => h x (List.mem_cons_of_mem _ hx))

theorem findKeyAppendRight {l : List (Nat × α)} {a q : Nat} {v : α}
    (h : q ≠ a) :
    (l ++ [(a, v)]).find? (fun e => e.1 == q) = l.find? (fun e => e.1 == q) := by
  induction l with
  | nil =>
    have ha : (a == q) = false := by
      simp
      omega
    simp [List.find?, ha]
  | cons e es ih =>
    cases he : (e.1 == q) with
    | true => simp [List.find?, he]
    | false => simpa [List.find?, he] using ih

/-- C2: with a live non-null pointer `p` holding `n`, the uninterfered
CAS retry loop of `increment` terminates with the stored value
`n + one` and `add delta` with `n + delta`; the successful iteration
frees exactly the superseded box (old address dead, heap size
preserved, all other allocations untouched); and on a failed
compare-exchange (the pointer changed between the load and the CAS) the
iteration frees the just-allocated candidate, leaving the heap exactly
as before the iteration — the candidate is never leaked. -/
theorem cas_add_increment_correct (α : Type) (c : AtomicCell α)
    (hadd : α → α → α) (delta one : α) (p : Nat) (n : α)
    (hwf : c.WF) (hp : c.ptr = some p) (hv : c.valAt p = some n) :
    (ArcThreadShare.increment c hadd one).current = some (hadd n one) ∧
    (ArcThreadShare.add c hadd delta).current = some (hadd n delta) ∧
    (ArcThreadShare.casAddIter c hadd delta p n).2 = true ∧
    (ArcThreadShare.add c hadd delta).valAt p = none ∧
    (ArcThreadShare.add c hadd delta).heap.length = c.heap.length ∧
    (∀ q, q ≠ p → q ≠ c.nextAddr →
      (ArcThreadShare.add c hadd delta).valAt q = c.valAt q) ∧
    (∀ (c2 : AtomicCell α) (cur : α), c2.WF → c2.ptr ≠ some p →
      (ArcThreadShare.casAddIter c2 hadd delta p cur).2 = false ∧
      (ArcThreadShare.casAddIter c2 hadd delta p cur).1.heap = c2.heap ∧
      (ArcThreadShare.casAddIter c2 hadd delta p cur).1.ptr = c2.ptr) := by
  have hpmem : ∃ e ∈ c.heap, e.1 = p := by
    rcases nodupKeysMemOfFind hv with ⟨e, he, hep, _⟩
    exact ⟨e, he, hep⟩
  have hpA : p < c.nextAddr := by
    rcases hpmem with ⟨e, he, hep⟩
    have := hwf.keysLt e he
    omega
  have hkeysNe : ∀ e ∈ c.heap, e.1 ≠ c.nextAddr := by
    intro e he
    have := hwf.keysLt e he
    omega
  have haddEq : ∀ d : α, ArcThreadShare.add c hadd d =
      ⟨freeAddr (c.heap ++ [(c.nextAddr, hadd n d)]) p, c.nextAddr + 1,
        some c.nextAddr⟩ := by
    intro d
    simp [ArcThreadShare.add, hp, hv, ArcThreadShare.casAddIter]
  have hvalA : ∀ w : α,
      ((freeAddr (c.heap ++ [(c.nextAddr, w)]) p).find?
        (fun e => e.1 == c.nextAddr)).map (·.2) = some w := by
    intro w
    rw [findKeyFreeAddr (by omega : c.nextAddr ≠ p)]
    rw [findKeyAppendLeftNone _ hkeysNe]
    simp [List.find?]
  refine ⟨?_, ?_, ?_, ?_, ?_, ?_, ?_⟩
  · rw [ArcThreadShare.increment, haddEq one]
    simpa [AtomicCell.current, AtomicCell.valAt] using hvalA (hadd n one)
  · rw [haddEq delta]
    simpa [AtomicCell.current, AtomicCell.valAt] using hvalA (hadd n delta)
  · simp [ArcThreadShare.casAddIter, hp]
  · rw [haddEq delta]
    simp [AtomicCell.valAt, findKeyFreeAddrSelf]
  · rw [haddEq delta]
    have hnodupX : ((c.heap ++ [(c.nextAddr, hadd n delta)]).map (·.1)).Nodup := by
      rw [List.map_append]
      refine List.Nodup.append hwf.nodupKeys (by simp) ?_
      intro a ha hb
      simp at hb
      rcases List.mem_map.mp ha with ⟨e, he, hea⟩
      exact hkeysNe e he (by rw [hea, hb])
    have hmemX : ∃ e ∈ c.heap ++ [(c.nextAddr, hadd n delta)], e.1 = p := by
      rcases hpmem with ⟨e, he, hep⟩
      exact ⟨e, List.mem_append_left _ he, hep⟩
    have := lengthFreeAddr hnodupX hmemX
    simp at this ⊢
    omega
  · intro q hqp hqA
    rw [haddEq delta]
    simp only [AtomicCell.valAt]
    rw [findKeyFreeAddr hqp, findKeyAppendRight hqA]
  · intro c2 cur hwf2 hne
    have hkeys2 : ∀ e ∈ c2.heap, e.1 ≠ c2.nextAddr := by
      intro e he
      have := hwf2.keysLt e he
      omega
    have hiter : ArcThreadShare.casAddIter c2 hadd delta p cur =
        (⟨freeAddr (c2.heap ++ [(c2.nextAddr, hadd cur delta)]) c2.nextAddr,
          c2.nextAddr + 1, c2.ptr⟩, false) := by
      simp [ArcThreadShare.casAddIter, hne]
    have hheap : freeAddr (c2.heap ++ [(c2.nextAddr, hadd cur delta)]) c2.nextAddr =
        c2.heap := by
      rw [freeAddrAppend, freeAddrOfNotMem hkeys2]
      simp [freeAddr, List.filter]
    rw [hiter, hheap]
    exact ⟨rfl, rfl, rfl⟩

/-- Witness for C2 at a fresh cell holding 5 (`delta = 3`, `one = 1`),
with a pointer-changed cell exercising the failure path. -/
theorem cas_add_increment_correct_witness :
    (ArcThreadShare.increment (ArcThreadShare.new 5) Nat.add 1).current =
      some (Nat.add 5 1) ∧
    (ArcThreadShare.add (ArcThreadShare.new 5) Nat.add 3).current =
      some (Nat.add 5 3) ∧
    (ArcThreadShare.casAddIter (ArcThreadShare.new 5) Nat.add 3 0 5).2 = true ∧
    (ArcThreadShare.add (ArcThreadShare.new 5) Nat.add 3).valAt 0 = none ∧
    (ArcThreadShare.add (ArcThreadShare.new 5) Nat.add 3).heap.length =
      (ArcThreadShare.new 5).heap.length ∧
    (∀ q, q ≠ 0 → q ≠ (ArcThreadShare.new 5).nextAddr →
      (ArcThreadShare.add (ArcThreadShare.new 5) Nat.add 3).valAt q =
        (ArcThreadShare.new 5).valAt q) ∧
    (∀ (c2 : AtomicCell Nat) (cur : Nat), c2.WF → c2.ptr ≠ some 0 →
      (ArcThreadShare.casAddIter c2 Nat.add 3 0 cur).2 = false ∧
      (ArcThreadShare.casAddIter c2 Nat.add 3 0 cur).1.heap = c2.heap ∧
      (ArcThreadShare.casAddIter c2 Nat.add 3 0 cur).1.ptr = c2.ptr) :=
  cas_add_increment_correct Nat (ArcThreadShare.new 5) Nat.add 3 1 0 5
    ⟨fun p hp => by
        simp [ArcThreadShare.new] at hp
        simp [ArcThreadShare.new, AtomicCell.valAt, ← hp, List.find?],
      fun e he => by
        simp [ArcThreadShare.new] at he
        simp [he, ArcThreadShare.new],
      by simp [ArcThreadShare.new]⟩
    rfl rfl

/-! Lemmas for the concurrency models of C1. -/

theorem getElemMapEq (l : List γ) (f : γ → δ) (i : Nat) :
    (l.map f)[i]? = (l[i]?).map f := by
  induction l generalizing i with
  | nil => simp
  | cons x xs ih =>
    cases i with
    | zero => simp
    | succ j =>
      simp only [List.map_cons, List.getElem?_cons_succ]
      exact ih j

theorem lockedStep_invariant (st : LockedPool) (i : Nat) :
    (lockedStep st i).value + (lockedStep st i).pending.sum =
      st.value + st.pending.sum := by
  cases hg : st.pending[i]? with
  | none => simp [lockedStep, hg]
  | some k =>
    cases k with
    | zero => simp [lockedStep, hg]
    | succ k2 =>
      have hsum := listSumSet st.pending i (k2 + 1) k2 hg
      simp [lockedStep, hg]
      omega

theorem lockedRun_invariant (sched : List Nat) (st : LockedPool) :
    (lockedRun st sched).value + (lockedRun st sched).pending.sum =
      st.value + st.pending.sum := by
  induction sched generalizing st with
  | nil => rfl
  | cons i rest ih =>
    rw [lockedRun, ih (lockedStep st i)]
    exact lockedStep_invariant st i

theorem casStep_invariant (total : Nat) (st : CasPool) (a : CasAct)
    (h : CasInvariant total st) : CasInvariant total (casStep st a) := by
  obtain ⟨hbal, hsnap⟩ := h
  cases a with
  | load i =>
    cases hg : st.threads[i]? with
    | none =>
      simp only [casStep, hg]
      exact ⟨hbal, hsnap⟩
    | some t =>
      cases hl : t.loaded with
      | some pair =>
        simp only [casStep, hg, hl]
        exact ⟨hbal, hsnap⟩
      | none =>
        by_cases hpend : t.pending = 0
        · simp only [casStep, hg, hl, hpend, if_pos rfl]
          exact ⟨hbal, hsnap⟩
        · simp only [casStep, hg, hl, if_neg hpend]
          constructor
          · have hget : (st.threads.map (·.pending))[i]? = some t.pending := by
              rw [getElemMapEq, hg]
              rfl
            have hsum := listSumSet (st.threads.map (·.pending)) i t.pending
              t.pending hget
            rw [listMapSet]
            simp only at hsum ⊢
            omega
          · intro t2 ht2 ver v hl2
            rcases memOfMemSet ht2 with hmem | rfl
            · exact hsnap t2 hmem ver v hl2
            · simp at hl2
              obtain ⟨hver, hval⟩ := hl2
              subst hver
              subst hval
              exact ⟨Nat.le_refl _, fun _ => rfl, hpend⟩
  | cas i =>
    cases hg : st.threads[i]? with
    | none =>
      simp only [casStep, hg]
      exact ⟨hbal, hsnap⟩
    | some t =>
      cases hl : t.loaded with
      | none =>
        simp only [casStep, hg, hl]
        exact ⟨hbal, hsnap⟩
      | some pair =>
        obtain ⟨ver, v⟩ := pair
        have hmem : t ∈ st.threads := memOfGetElemEq hg
        obtain ⟨hle, hcur, hpend⟩ := hsnap t hmem ver v hl
        by_cases hver : ver = st.version
        · simp only [casStep, hg, hl, if_pos hver]
          have hvv : v = st.value := hcur hver
          constructor
          · have hget : (st.threads.map (·.pending))[i]? = some t.pending := by
              rw [getElemMapEq, hg]
              rfl
            have hsum := listSumSet (st.threads.map (·.pending)) i t.pending
              (t.pending - 1) hget
            rw [listMapSet]
            simp only at hsum ⊢
            omega
          · intro t2 ht2 ver2 v2 hl2
            rcases memOfMemSet ht2 with hmem2 | rfl
            · obtain ⟨hle2, _, hpend2⟩ := hsnap t2 hmem2 ver2 v2 hl2
              refine ⟨?_, ?_, hpend2⟩
              · show ver2 ≤ st.version + 1
                omega
              · intro hv2
                have hv2b : ver2 = st.version + 1 := hv2
                exact absurd hv2b (by omega)
            · simp at hl2
        · simp only [casStep, hg, hl, if_neg hver]
          constructor
          · have hget : (st.threads.map (·.pending))[i]? = some t.pending := by
              rw [getElemMapEq, hg]
              rfl
            have hsum := listSumSet (st.threads.map (·.pending)) i t.pending
              t.pending hget
            rw [listMapSet]
            simp only at hsum ⊢
            omega
          · intro t2 ht2 ver2 v2 hl2
            rcases memOfMemSet ht2 with hmem2 | rfl
            · exact hsnap t2 hmem2 ver2 v2 hl2
            · simp at hl2

theorem casRun_invariant (total : Nat) (acts : List CasAct) (st : CasPool)
    (h : CasInvariant total st) : CasInvariant total (casRun st acts) := by
  induction acts generalizing st with
  | nil => exact h
  | cons a rest ih => exact ih (casStep st a) (casStep_invariant total st a h)

theorem initCasPool_invariant (n m : Nat) :
    CasInvariant (n * m) (initCasPool n m) := by
  constructor
  · simp [initCasPool, List.map_replicate, List.sum_replicate, smul_eq_mul,
      Nat.mul_comm]
  · intro t ht ver v hl
    have := List.eq_of_mem_replicate ht
    subst this
    simp at hl

/-- C1: starting from 0, `n` writer threads each performing `m` atomic
`update(|x| *x += 1)` transitions on the lock-guarded counter (the
reader/writer-locked `ThreadShare` and the mutex-locked `SimpleShare`
share this model: the whole closure runs under the exclusive lock) end
at exactly `n * m` under every schedule in which all threads finish; and
the same exact count holds for the CAS-based `increment()` of the
lock-free `ArcThreadShare` under every interleaving of its loads and
compare-exchange attempts. In particular 5 threads of 100 updates end
at exactly 500. -/
theorem update_counts_exact (n m : Nat) (sched : List Nat)
    (acts : List CasAct)
    (h1 : (lockedRun (initLockedPool n m) sched).done)
    (h2 : (casRun (initCasPool n m) acts).done) :
    (lockedRun (initLockedPool n m) sched).value = n * m ∧
    (casRun (initCasPool n m) acts).value = n * m := by
  constructor
  · have hinv := lockedRun_invariant sched (initLockedPool n m)
    have hsum0 : (lockedRun (initLockedPool n m) sched).pending.sum = 0 :=
      listSumZero h1
    have hinit : (initLockedPool n m).value +
        (initLockedPool n m).pending.sum = n * m := by
      simp [initLockedPool, List.sum_replicate, smul_eq_mul, Nat.mul_comm]
    omega
  · have hinv := casRun_invariant (n * m) acts (initCasPool n m)
      (initCasPool_invariant n m)
    obtain ⟨hbal, _⟩ := hinv
    have hsum0 :
        ((casRun (initCasPool n m) acts).threads.map (·.pending)).sum = 0 := by
      apply listSumZero
      intro x hx
      rcases List.mem_map.mp hx with ⟨t, ht, rfl⟩
      exact (h2 t ht).1
    omega

/-- Witness for C1: two threads with two updates each; a complete
interleaving of both models ends at exactly 2 * 2. -/
theorem update_counts_exact_witness :
    (lockedRun (initLockedPool 2 2) [0, 1, 0, 1]).done ∧
    (casRun (initCasPool 2 2)
      [.load 0, .cas 0, .load 1, .cas 1, .load 0, .cas 0, .load 1, .cas 1]).done ∧
    (lockedRun (initLockedPool 2 2) [0, 1, 0, 1]).value = 2 * 2 ∧
    (casRun (initCasPool 2 2)
      [.load 0, .cas 0, .load 1, .cas 1, .load 0, .cas 0, .load 1, .cas 1]).value = 2 * 2 :=
  ⟨by decide, by decide,
    (update_counts_exact 2 2 [0, 1, 0, 1]
      [.load 0, .cas 0, .load 1, .cas 1, .load 0, .cas 0, .load 1, .cas 1]
      (by decide) (by decide)).1,
    (update_counts_exact 2 2 [0, 1, 0, 1]
      [.load 0, .cas 0, .load 1, .cas 1, .load 0, .cas 0, .load 1, .cas 1]
      (by decide) (by decide)).2⟩
